import Mathlib

/-!
Verification of the blog-link extraction script
(`apps/agent-cli-ink/parse_blog.py`).

The script applies the Python regular expression
`href="(/blog/[^"]*)"` with `re.findall` to a hardcoded HTML sample and
prints one line per captured group, prefixed by `https://claude.com`.

The embedding below models strings as `List Char` (Python `str` is a
sequence of code points).  `re.findall` with this pattern scans the
input left to right; at each position it tries to match the literal
`href="/blog/`, then greedily captures non-quote characters up to the
first following `"`.  On success the captured group is
`/blog/` followed by the non-quote run, and scanning resumes after the
closing quote; on failure scanning advances one character.
-/

set_option maxRecDepth 4000

/-- The literal part of the pattern before the variable capture:
`href="/blog/` (the regex `href="(/blog/` up to the character class). -/
def hrefPat : List Char := "href=\"/blog/".toList

/-- The fixed head of every captured group: `/blog/`. -/
def blogRoot : List Char := "/blog/".toList

/-- Matches a literal character sequence `p` at the head of `s`,
returning the remainder of `s` on success (regex literal matching). -/
def matchLit : List Char → List Char → Option (List Char)
  | [], s => some s
  | _ :: _, [] => none
  | p :: ps, c :: rest => if c = p then matchLit ps rest else none

/-- Greedy capture of `[^"]*` followed by the closing `"`:
returns the run of non-quote characters and the remainder after the
closing quote, or `none` when no closing quote follows. -/
def captureUntilQuote : List Char → Option (List Char × List Char)
  | [] => none
  | c :: rest =>
    if c = '"' then some ([], rest)
    else
      match captureUntilQuote rest with
      | some (cap, rem) => some (c :: cap, rem)
      | none => none

/-- One attempt of the regex `href="(/blog/[^"]*)"` anchored at the head
of `s`: on success returns the captured group and the remainder of the
input after the whole match. -/
def tryMatch (s : List Char) : Option (List Char × List Char) :=
  match matchLit hrefPat s with
  | some s₁ =>
    match captureUntilQuote s₁ with
    | some (tok, rem) => some (blogRoot ++ tok, rem)
    | none => none
  | none => none

/-- Fuel-indexed scanner: the left-to-right, non-overlapping match
collection of `re.findall`.  On a match the scan resumes after the
closing quote; otherwise it advances one character.  A fuel of
`s.length` always suffices since every step strictly shortens the
input. -/
def extract_aux : Nat → List Char → List (List Char)
  | 0, _ => []
  | _ + 1, [] => []
  | fuel + 1, c :: rest =>
    match tryMatch (c :: rest) with
    | some (cap, rem) => cap :: extract_aux fuel rem
    | none => extract_aux fuel rest

/-- `matches = re.findall(pattern, markup)` for
`pattern = r'href="(/blog/[^"]*)"'`: the list of captured groups of the
non-overlapping matches, in order of appearance. -/
def extract_blog_links (s : List Char) : List (List Char) :=
  extract_aux s.length s

/-- The scanner instrumented with the start position of each match, as
`re.finditer` would report it: each output pair is
(match start index, captured group). -/
def extractPosAux : Nat → Nat → List Char → List (Nat × List Char)
  | 0, _, _ => []
  | _ + 1, _, [] => []
  | fuel + 1, p, c :: rest =>
    match tryMatch (c :: rest) with
    | some (cap, rem) =>
      (p, cap) :: extractPosAux fuel (p + ((c :: rest).length - rem.length)) rem
    | none => extractPosAux fuel (p + 1) rest

/-- Position-annotated matches of the whole input. -/
def extractPos (s : List Char) : List (Nat × List Char) :=
  extractPosAux s.length 0 s

/-- The hardcoded sample (`sample_html` in the script): a Python
triple-quoted string beginning and ending with a newline. -/
def sample_html : String :=
  "\n<a href=\"/blog/introducing-cowork\">Introducing Cowork</a>\n<a href=\"/blog/claude-3-5-sonnet\">Claude 3.5 Sonnet</a>\n"

/-- The fixed introductory line printed by the driver. -/
def introLine : List Char := "示例解析:".toList

/-- The fixed text printed before each captured group:
a single space then `https://claude.com` (from the f-string
`f" https://claude.com{m}"`). -/
def urlPre : List Char := " https://claude.com".toList

/-- The full standard output of the driver, one list entry per printed
line: the introductory line, then one URL line per captured group, in
order. -/
def output_lines (s : List Char) : List (List Char) :=
  introLine :: (extract_blog_links s).map (fun m => urlPre ++ m)

/-- Spec-side notion (§4.1): a full match of the pattern
`href="(/blog/[^"]*)"` starts exactly at the head of `s`. -/
def matchAt (s : List Char) : Prop :=
  ∃ tok rem, ('"' : Char) ∉ tok ∧ s = hrefPat ++ (tok ++ '"' :: rem)

/-- Spec-side description of the extraction (§4.1 wording): scan left to
right; at a position where an occurrence of `href="` `/blog/` `[^"]*` `"`
starts, capture `/blog/` plus the non-quote run truncated at the first
subsequent quote and resume after the closing quote; at any other
position move on one character. -/
inductive ScanRel : List Char → List (List Char) → Prop where
  | nil : ScanRel [] []
  | skip (c : Char) (rest : List Char) (out : List (List Char)) :
      ¬ matchAt (c :: rest) → ScanRel rest out → ScanRel (c :: rest) out
  | hit (tok rem : List Char) (out : List (List Char)) :
      ('"' : Char) ∉ tok → ScanRel rem out →
      ScanRel (hrefPat ++ (tok ++ '"' :: rem)) ((blogRoot ++ tok) :: out)

/-- An occurrence of the pattern appears somewhere in `s`. -/
def hasHit (s : List Char) : Prop :=
  ∃ p tok rem, ('"' : Char) ∉ tok ∧ s = p ++ (hrefPat ++ (tok ++ '"' :: rem))

/-- A full match of the pattern starts at index `q` of `s`, with
captured group `cap`. -/
def occAt (s : List Char) (q : Nat) (cap : List Char) : Prop :=
  ∃ tok rem, ('"' : Char) ∉ tok ∧ cap = blogRoot ++ tok ∧
    s.drop q = hrefPat ++ (tok ++ '"' :: rem)

/-- The anchor text `href="/blog/x"` used by the duplicate-handling
property. -/
def occX : List Char := "href=\"/blog/x\"".toList

/-- The capture `/blog/x`. -/
def capX : List Char := "/blog/x".toList

/-- Variant spelling: uppercase attribute name. -/
def hrefUpper : List Char := "HREF=\"".toList

/-- Variant spelling: whitespace around the equals sign. -/
def hrefSpaced : List Char := "href = \"".toList

/-- Variant spelling: single quotes. -/
def hrefSingle : List Char := "href='".toList

/-! ### Characterisation of the single-match primitives -/

theorem matchLit_eq_some {p s r : List Char} :
    matchLit p s = some r ↔ s = p ++ r := by
  induction p generalizing s with
  | nil => simp [matchLit, eq_comm]
  | cons a ps ih =>
    cases s with
    | nil => simp [matchLit]
    | cons c rest =>
      by_cases h : c = a
      · subst h
        simp [matchLit, ih]
      · simp [matchLit, h, Ne.symm h]

theorem captureUntilQuote_some {s cap rem : List Char}
    (h : captureUntilQuote s = some (cap, rem)) :
    ('"' : Char) ∉ cap ∧ s = cap ++ '"' :: rem := by
  induction s generalizing cap rem with
  | nil => simp [captureUntilQuote] at h
  | cons c rest ih =>
    by_cases hc : c = '"'
    · subst hc
      simp [captureUntilQuote] at h
      obtain ⟨h1, h2⟩ := h
      subst h1
      subst h2
      simp
    · rw [captureUntilQuote, if_neg hc] at h
      cases hr : captureUntilQuote rest with
      | none => rw [hr] at h; exact absurd h (by simp)
      | some pr =>
        cases pr with
        | mk cap' rem' =>
          rw [hr] at h
          simp only [Option.some.injEq, Prod.mk.injEq] at h
          obtain ⟨h1, h2⟩ := h
          obtain ⟨hnot, hs⟩ := ih hr
          subst h1
          subst h2
          constructor
          · intro hmem
            rcases List.mem_cons.mp hmem with hq | hq
            · exact hc hq.symm
            · exact hnot hq
          · simp [hs]

theorem captureUntilQuote_eval {cap rem : List Char} (h : ('"' : Char) ∉ cap) :
    captureUntilQuote (cap ++ '"' :: rem) = some (cap, rem) := by
  induction cap with
  | nil => simp [captureUntilQuote]
  | cons c cs ih =>
    have hc : ¬ c = '"' := fun hcq => h (by simp [hcq])
    have h' : ('"' : Char) ∉ cs := fun hm => h (List.mem_cons_of_mem _ hm)
    simp [captureUntilQuote, hc, ih h']

theorem tryMatch_eq_none_of_lit {s : List Char}
    (hm : matchLit hrefPat s = none) : tryMatch s = none := by
  unfold tryMatch
  rw [hm]

theorem tryMatch_eq_of_lit {s s₁ : List Char}
    (hm : matchLit hrefPat s = some s₁) :
    tryMatch s =
      (match captureUntilQuote s₁ with
        | some (tok, rem) => some (blogRoot ++ tok, rem)
        | none => none) := by
  unfold tryMatch
  rw [hm]

theorem tryMatch_some {s cap rem : List Char}
    (h : tryMatch s = some (cap, rem)) :
    ∃ tok, ('"' : Char) ∉ tok ∧ cap = blogRoot ++ tok ∧
      s = hrefPat ++ (tok ++ '"' :: rem) := by
  cases hm : matchLit hrefPat s with
  | none => rw [tryMatch_eq_none_of_lit hm] at h; exact absurd h (by simp)
  | some s₁ =>
    rw [tryMatch_eq_of_lit hm] at h
    cases hcq : captureUntilQuote s₁ with
    | none => rw [hcq] at h; exact absurd h (by simp)
    | some pr =>
      cases pr with
      | mk tok rem' =>
        rw [hcq] at h
        simp only [Option.some.injEq, Prod.mk.injEq] at h
        obtain ⟨h1, h2⟩ := h
        obtain ⟨hn, hs₁⟩ := captureUntilQuote_some hcq
        subst h2
        refine ⟨tok, hn, h1.symm, ?_⟩
        rw [matchLit_eq_some.mp hm, hs₁]

theorem tryMatch_eval {tok rem : List Char} (h : ('"' : Char) ∉ tok) :
    tryMatch (hrefPat ++ (tok ++ '"' :: rem)) = some (blogRoot ++ tok, rem) := by
  rw [tryMatch_eq_of_lit (matchLit_eq_some.mpr rfl), captureUntilQuote_eval h]

theorem hrefPat_length : hrefPat.length = 12 := by decide

theorem tryMatch_some_length {s cap rem : List Char}
    (h : tryMatch s = some (cap, rem)) : rem.length < s.length := by
  obtain ⟨tok, -, -, hs⟩ := tryMatch_some h
  subst hs
  simp [List.length_append, hrefPat_length]
  omega

theorem tryMatch_some_quote {s cap rem : List Char}
    (h : tryMatch s = some (cap, rem)) : ('"' : Char) ∈ s := by
  obtain ⟨tok, -, -, hs⟩ := tryMatch_some h
  subst hs
  simp

theorem tryMatch_nil : tryMatch ([] : List Char) = none := by decide

theorem tryMatch_none_iff {s : List Char} :
    tryMatch s = none ↔ ¬ matchAt s := by
  constructor
  · rintro h ⟨tok, rem, hq, hs⟩
    rw [hs, tryMatch_eval hq] at h
    exact Option.noConfusion h
  · intro h
    cases hm : tryMatch s with
    | none => rfl
    | some pr =>
      cases pr with
      | mk cap rem =>
        obtain ⟨tok, hq, -, hs⟩ := tryMatch_some hm
        exact absurd ⟨tok, rem, hq, hs⟩ h

/-! ### Stepping equations for the scanner -/

theorem extract_aux_congr :
    ∀ (f₁ f₂ : Nat) (s : List Char), s.length ≤ f₁ → s.length ≤ f₂ →
      extract_aux f₁ s = extract_aux f₂ s := by
  intro f₁
  induction f₁ with
  | zero =>
    intro f₂ s h₁ _
    have hs : s = [] := List.length_eq_zero.mp (Nat.le_zero.mp h₁)
    subst hs
    cases f₂ <;> rfl
  | succ f ih =>
    intro f₂ s h₁ h₂
    cases s with
    | nil => cases f₂ <;> rfl
    | cons c rest =>
      cases f₂ with
      | zero => exact absurd h₂ (by simp)
      | succ f₂' =>
        have hl₁ : rest.length ≤ f := by
          have := h₁
          simp only [List.length_cons] at this
          omega
        have hl₂ : rest.length ≤ f₂' := by
          have := h₂
          simp only [List.length_cons] at this
          omega
        simp only [extract_aux]
        cases hm : tryMatch (c :: rest) with
        | none => exact ih f₂' rest hl₁ hl₂
        | some pr =>
          cases pr with
          | mk cap rem =>
            have hrem := tryMatch_some_length hm
            simp only [List.length_cons] at hrem
            show cap :: extract_aux f rem = cap :: extract_aux f₂' rem
            rw [ih f₂' rem (by omega) (by omega)]

theorem extract_some {s cap rem : List Char} (h : tryMatch s = some (cap, rem)) :
    extract_blog_links s = cap :: extract_blog_links rem := by
  cases s with
  | nil => rw [tryMatch_nil] at h; exact absurd h (by simp)
  | cons c rest =>
    unfold extract_blog_links
    simp only [List.length_cons, extract_aux, h]
    have hrem := tryMatch_some_length h
    simp only [List.length_cons] at hrem
    rw [extract_aux_congr rest.length rem.length rem (by omega) le_rfl]

theorem extract_none {c : Char} {rest : List Char}
    (h : tryMatch (c :: rest) = none) :
    extract_blog_links (c :: rest) = extract_blog_links rest := by
  unfold extract_blog_links
  simp only [List.length_cons, extract_aux, h]

theorem extractPosAux_congr :
    ∀ (f₁ f₂ p : Nat) (s : List Char), s.length ≤ f₁ → s.length ≤ f₂ →
      extractPosAux f₁ p s = extractPosAux f₂ p s := by
  intro f₁
  induction f₁ with
  | zero =>
    intro f₂ p s h₁ _
    have hs : s = [] := List.length_eq_zero.mp (Nat.le_zero.mp h₁)
    subst hs
    cases f₂ <;> rfl
  | succ f ih =>
    intro f₂ p s h₁ h₂
    cases s with
    | nil => cases f₂ <;> rfl
    | cons c rest =>
      cases f₂ with
      | zero => exact absurd h₂ (by simp)
      | succ f₂' =>
        have hl₁ : rest.length ≤ f := by
          have := h₁
          simp only [List.length_cons] at this
          omega
        have hl₂ : rest.length ≤ f₂' := by
          have := h₂
          simp only [List.length_cons] at this
          omega
        simp only [extractPosAux]
        cases hm : tryMatch (c :: rest) with
        | none => exact ih f₂' (p + 1) rest hl₁ hl₂
        | some pr =>
          cases pr with
          | mk cap rem =>
            have hrem := tryMatch_some_length hm
            simp only [List.length_cons] at hrem
            show (p, cap) :: extractPosAux f (p + ((c :: rest).length - rem.length)) rem =
              (p, cap) :: extractPosAux f₂' (p + ((c :: rest).length - rem.length)) rem
            rw [ih f₂' _ rem (by omega) (by omega)]

theorem extract_aux_eq_map_snd :
    ∀ (fuel p : Nat) (s : List Char),
      extract_aux fuel s = (extractPosAux fuel p s).map Prod.snd := by
  intro fuel
  induction fuel with
  | zero => intro p s; rfl
  | succ f ih =>
    intro p s
    cases s with
    | nil => rfl
    | cons c rest =>
      simp only [extract_aux, extractPosAux]
      cases hm : tryMatch (c :: rest) with
      | none => exact ih _ rest
      | some pr =>
        cases pr with
        | mk cap rem =>
          show cap :: extract_aux f rem =
            ((p, cap) ::
              extractPosAux f (p + ((c :: rest).length - rem.length)) rem).map Prod.snd
          simp only [List.map_cons]
          exact congrArg (cap :: ·) (ih _ rem)

theorem extract_eq_map_snd (s : List Char) :
    extract_blog_links s = (extractPos s).map Prod.snd :=
  extract_aux_eq_map_snd s.length 0 s

/-! ### Where the captures come from -/

theorem extractPosAux_ge :
    ∀ (fuel p : Nat) (s : List Char) (pr : Nat × List Char),
      pr ∈ extractPosAux fuel p s → p ≤ pr.1 := by
  intro fuel
  induction fuel with
  | zero => intro p s pr h; simp [extractPosAux] at h
  | succ f ih =>
    intro p s pr h
    cases s with
    | nil => simp [extractPosAux] at h
    | cons c rest =>
      simp only [extractPosAux] at h
      cases hm : tryMatch (c :: rest) with
      | none =>
        rw [hm] at h
        have := ih (p + 1) rest pr h
        omega
      | some pr' =>
        cases pr' with
        | mk cap rem =>
          rw [hm] at h
          simp only [List.mem_cons] at h
          rcases h with h | h
          · subst h; simp
          · have := ih _ rem pr h
            omega

theorem extractPosAux_chain :
    ∀ (fuel p : Nat) (s : List Char),
      List.Chain' (· < ·) ((extractPosAux fuel p s).map Prod.fst) := by
  intro fuel
  induction fuel with
  | zero => intro p s; simp [extractPosAux]
  | succ f ih =>
    intro p s
    cases s with
    | nil => simp [extractPosAux]
    | cons c rest =>
      simp only [extractPosAux]
      cases hm : tryMatch (c :: rest) with
      | none => exact ih (p + 1) rest
      | some pr =>
        cases pr with
        | mk cap rem =>
          show List.Chain' (· < ·)
            (((p, cap) ::
              extractPosAux f (p + ((c :: rest).length - rem.length)) rem).map Prod.fst)
          simp only [List.map_cons]
          rw [List.chain'_cons']
          constructor
          · intro y hy
            have hmem := List.mem_of_mem_head? hy
            obtain ⟨pr', hpr', hfst⟩ := List.mem_map.mp hmem
            have hge := extractPosAux_ge f _ rem pr' hpr'
            have hlt := tryMatch_some_length hm
            simp only [List.length_cons] at hlt
            have hΔ : 1 ≤ (c :: rest).length - rem.length := by
              simp only [List.length_cons]
              omega
            omega
          · exact ih _ rem

theorem extractPosAux_occ :
    ∀ (fuel : Nat) (w s : List Char), s.length ≤ fuel →
      ∀ pr : Nat × List Char, pr ∈ extractPosAux fuel w.length s →
        occAt (w ++ s) pr.1 pr.2 := by
  intro fuel
  induction fuel with
  | zero => intro w s hle pr h; simp [extractPosAux] at h
  | succ f ih =>
    intro w s hle pr h
    cases s with
    | nil => simp [extractPosAux] at h
    | cons c rest =>
      simp only [extractPosAux] at h
      cases hm : tryMatch (c :: rest) with
      | none =>
        rw [hm] at h
        have hlen : rest.length ≤ f := by
          simp only [List.length_cons] at hle
          omega
        have harg : w.length + 1 = (w ++ [c]).length := by simp
        rw [harg] at h
        have := ih (w ++ [c]) rest hlen pr h
        simpa [List.append_assoc] using this
      | some pr' =>
        cases pr' with
        | mk cap rem =>
          rw [hm] at h
          simp only [List.mem_cons] at h
          obtain ⟨tok, hq, hcap, hs⟩ := tryMatch_some hm
          rcases h with h | h
          · subst h
            refine ⟨tok, rem, hq, by simpa using hcap, ?_⟩
            rw [List.drop_left, hs]
          · have hlen : rem.length ≤ f := by
              have hlt := tryMatch_some_length hm
              simp only [List.length_cons] at hle hlt
              omega
            have hlen1 : (c :: rest).length =
                hrefPat.length + (tok.length + (rem.length + 1)) := by
              rw [hs]
              simp [List.length_append, List.length_cons]
            have hlen2 : (w ++ (hrefPat ++ (tok ++ ['"']))).length =
                w.length + (hrefPat.length + (tok.length + 1)) := by
              simp [List.length_append, List.length_cons]
            have hw' : w.length + ((c :: rest).length - rem.length) =
                (w ++ (hrefPat ++ (tok ++ ['"']))).length := by
              rw [hlen1, hlen2, hrefPat_length]
              omega
            rw [hw'] at h
            have hsplit : (w ++ (hrefPat ++ (tok ++ ['"']))) ++ rem = w ++ (c :: rest) := by
              rw [hs]
              simp [List.append_assoc]
            have := ih (w ++ (hrefPat ++ (tok ++ ['"']))) rem hlen pr h
            rwa [hsplit] at this

theorem extractPos_occ {s : List Char} :
    ∀ pr ∈ extractPos s, occAt s pr.1 pr.2 := by
  intro pr h
  have h0 : pr ∈ extractPosAux s.length ([] : List Char).length s := h
  have := extractPosAux_occ s.length [] s le_rfl pr h0
  simpa using this

/-! ### Presence and absence of occurrences -/

theorem extract_ne_nil_iff_aux :
    ∀ (n : Nat) (s : List Char), s.length ≤ n →
      (extract_blog_links s ≠ [] ↔ hasHit s) := by
  intro n
  induction n with
  | zero =>
    intro s h
    have hs : s = [] := List.length_eq_zero.mp (Nat.le_zero.mp h)
    subst hs
    constructor
    · intro hne; exact absurd rfl hne
    · rintro ⟨p, tok, rem, -, hs⟩
      have := congrArg List.length hs
      simp [List.length_append, hrefPat_length] at this
      omega
  | succ m ih =>
    intro s h
    cases s with
    | nil =>
      constructor
      · intro hne; exact absurd rfl hne
      · rintro ⟨p, tok, rem, -, hs⟩
        have := congrArg List.length hs
        simp [List.length_append, hrefPat_length] at this
        omega
    | cons c rest =>
      cases hm : tryMatch (c :: rest) with
      | some pr =>
        cases pr with
        | mk cap rem =>
          rw [extract_some hm]
          obtain ⟨tok, hq, -, hs⟩ := tryMatch_some hm
          constructor
          · intro _
            exact ⟨[], tok, rem, hq, by simpa using hs⟩
          · intro _
            simp
      | none =>
        rw [extract_none hm]
        have hlen : rest.length ≤ m := by
          simp only [List.length_cons] at h
          omega
        rw [ih rest hlen]
        constructor
        · rintro ⟨p, tok, rem, hq, hs⟩
          exact ⟨c :: p, tok, rem, hq, by rw [List.cons_append, hs]⟩
        · rintro ⟨p, tok, rem, hq, hs⟩
          cases p with
          | nil =>
            exfalso
            have hsm : tryMatch (c :: rest) = some (blogRoot ++ tok, rem) := by
              rw [show c :: rest = hrefPat ++ (tok ++ '"' :: rem) from by simpa using hs]
              exact tryMatch_eval hq
            rw [hm] at hsm
            exact Option.noConfusion hsm
          | cons a p' =>
            rw [List.cons_append, List.cons.injEq] at hs
            exact ⟨p', tok, rem, hq, hs.2⟩

theorem extract_empty_iff (s : List Char) :
    extract_blog_links s = [] ↔ ¬ hasHit s := by
  have h := extract_ne_nil_iff_aux s.length s le_rfl
  constructor
  · intro he hh
    exact h.mpr hh he
  · intro hh
    by_contra hne
    exact hh (h.mp hne)

/-! ### Agreement with the spec description of the scan -/

theorem scanRel_of_extract_aux :
    ∀ (n : Nat) (s : List Char), s.length ≤ n →
      ScanRel s (extract_blog_links s) := by
  intro n
  induction n with
  | zero =>
    intro s h
    have hs : s = [] := List.length_eq_zero.mp (Nat.le_zero.mp h)
    subst hs
    exact ScanRel.nil
  | succ m ih =>
    intro s h
    cases s with
    | nil => exact ScanRel.nil
    | cons c rest =>
      cases hm : tryMatch (c :: rest) with
      | some pr =>
        cases pr with
        | mk cap rem =>
          obtain ⟨tok, hq, hcap, hs⟩ := tryMatch_some hm
          have hlen : rem.length ≤ m := by
            have hlt := tryMatch_some_length hm
            simp only [List.length_cons] at hlt h
            omega
          rw [extract_some hm, hcap, hs]
          exact ScanRel.hit tok rem _ hq (ih rem hlen)
      | none =>
        have hlen : rest.length ≤ m := by
          simp only [List.length_cons] at h
          omega
        rw [extract_none hm]
        refine ScanRel.skip c rest _ ?_ (ih rest hlen)
        rintro ⟨tok, rem, hq, hs⟩
        rw [hs, tryMatch_eval hq] at hm
        exact Option.noConfusion hm

theorem extract_of_scanRel {s : List Char} {out : List (List Char)}
    (h : ScanRel s out) : out = extract_blog_links s := by
  induction h with
  | nil => rfl
  | skip c rest out hnm _ ih =>
    rw [extract_none (tryMatch_none_iff.mpr hnm)]
    exact ih
  | hit tok rem out hq _ ih =>
    rw [extract_some (tryMatch_eval hq), ih]

/-! ### Skipping quote-free text -/

theorem hrefPat_split : hrefPat = "href=\"".toList ++ blogRoot := by decide

theorem tryMatch_some_head6 {s cap rem : List Char}
    (h : tryMatch s = some (cap, rem)) :
    ∃ u, s = "href=\"".toList ++ u := by
  obtain ⟨tok, -, -, hs⟩ := tryMatch_some h
  exact ⟨blogRoot ++ (tok ++ '"' :: rem), by rw [hs, hrefPat_split, List.append_assoc]⟩

theorem tryMatch_none_of_clean {p u : List Char} (hq : ('"' : Char) ∉ p)
    (hne : p ≠ []) : tryMatch (p ++ (hrefPat ++ u)) = none := by
  cases hm : tryMatch (p ++ (hrefPat ++ u)) with
  | none => rfl
  | some pr =>
    exfalso
    cases pr with
    | mk cap rem =>
      obtain ⟨u', hs⟩ := tryMatch_some_head6 hm
      have hplen : 1 ≤ p.length := by
        cases p with
        | nil => exact absurd rfl hne
        | cons a l => simp
      have h5 : (p ++ (hrefPat ++ u))[5]? = some '"' := by
        rw [hs]
        have he : (("href=\"".toList : List Char) ++ u')[5]? =
            (("href=\"".toList : List Char))[5]? :=
          List.getElem?_append_left (by decide)
        rw [he]
        decide
      rcases Nat.lt_or_ge 5 p.length with hlt | hge
      · rw [List.getElem?_append_left hlt] at h5
        exact hq (List.getElem?_mem h5)
      · rw [List.getElem?_append_right hge] at h5
        have hidx : 5 - p.length < hrefPat.length := by
          rw [hrefPat_length]
          omega
        rw [List.getElem?_append_left hidx] at h5
        have hcases : 5 - p.length = 0 ∨ 5 - p.length = 1 ∨ 5 - p.length = 2 ∨
            5 - p.length = 3 ∨ 5 - p.length = 4 := by omega
        rcases hcases with hk | hk | hk | hk | hk <;> rw [hk] at h5 <;>
          exact absurd h5 (by decide)

theorem extract_skip :
    ∀ (p u : List Char), ('"' : Char) ∉ p →
      extract_blog_links (p ++ (hrefPat ++ u)) = extract_blog_links (hrefPat ++ u) := by
  intro p
  induction p with
  | nil => intro u _; rfl
  | cons a p' ih =>
    intro u hq
    have hq' : ('"' : Char) ∉ p' := fun hm => hq (List.mem_cons_of_mem _ hm)
    have hnone : tryMatch ((a :: p') ++ (hrefPat ++ u)) = none :=
      tryMatch_none_of_clean hq (by simp)
    rw [List.cons_append] at hnone
    rw [List.cons_append, extract_none hnone, ih u hq']

theorem extract_nil_of_clean {s : List Char} (hq : ('"' : Char) ∉ s) :
    extract_blog_links s = [] := by
  induction s with
  | nil => rfl
  | cons c rest ih =>
    have hq' : ('"' : Char) ∉ rest := fun hm => hq (List.mem_cons_of_mem _ hm)
    have hnone : tryMatch (c :: rest) = none := by
      cases hm : tryMatch (c :: rest) with
      | none => rfl
      | some pr =>
        cases pr with
        | mk cap rem => exact absurd (tryMatch_some_quote hm) hq
    rw [extract_none hnone]
    exact ih hq'

theorem extract_double_occX (p q r : List Char)
    (hp : ('"' : Char) ∉ p) (hq2 : ('"' : Char) ∉ q) (hr : ('"' : Char) ∉ r) :
    extract_blog_links (p ++ (occX ++ (q ++ (occX ++ r)))) = [capX, capX] := by
  have hcap : capX = blogRoot ++ ['x'] := by decide
  have step : ∀ z : List Char,
      extract_blog_links (hrefPat ++ ('x' :: '"' :: z)) = capX :: extract_blog_links z := by
    intro z
    have h := extract_some (@tryMatch_eval ['x'] z (by decide))
    rw [hcap]
    exact h
  have hocc : occX = hrefPat ++ ('x' :: '"' :: []) := by decide
  have hshape : ∀ z : List Char, occX ++ z = hrefPat ++ ('x' :: '"' :: z) := by
    intro z
    rw [hocc, List.append_assoc]
    rfl
  rw [hshape (q ++ (occX ++ r)), hshape r]
  rw [extract_skip p _ hp]
  rw [step]
  rw [extract_skip q _ hq2]
  rw [step]
  rw [extract_nil_of_clean hr]

theorem append_head_ne {v w t u : List Char} {i : Nat}
    (hi : i < v.length) (hj : i < w.length) (hne : v[i]? ≠ w[i]?)
    (he : v ++ t = w ++ u) : False := by
  have h1 : (v ++ t)[i]? = v[i]? := List.getElem?_append_left hi
  have h2 : (w ++ u)[i]? = w[i]? := List.getElem?_append_left hj
  rw [he, h2] at h1
  exact hne h1.symm

theorem occAt_head6 {s : List Char} {q : Nat} {cap : List Char}
    (h : occAt s q cap) : ∃ u, s.drop q = "href=\"".toList ++ u := by
  obtain ⟨tok, rem, -, -, hs⟩ := h
  exact ⟨blogRoot ++ (tok ++ '"' :: rem), by rw [hs, hrefPat_split, List.append_assoc]⟩

theorem extract_mem_verbatim {s cap : List Char}
    (h : cap ∈ extract_blog_links s) : ∃ a b, s = a ++ (cap ++ b) := by
  rw [extract_eq_map_snd] at h
  obtain ⟨pr, hpr, hsnd⟩ := List.mem_map.mp h
  obtain ⟨tok, rem, hq, hcap, hdrop⟩ := extractPos_occ pr hpr
  have hcap' : cap = blogRoot ++ tok := by rw [← hsnd, hcap]
  refine ⟨s.take pr.1 ++ "href=\"".toList, '"' :: rem, ?_⟩
  calc s = s.take pr.1 ++ s.drop pr.1 := (List.take_append_drop pr.1 s).symm
    _ = s.take pr.1 ++ (hrefPat ++ (tok ++ '"' :: rem)) := by rw [hdrop]
    _ = (s.take pr.1 ++ "href=\"".toList) ++ (cap ++ ('"' :: rem)) := by
        rw [hcap', hrefPat_split]
        simp [List.append_assoc]

/-! ## The claims -/

/-- C1: for the script's hardcoded sample input (the two anchors for
`introducing-cowork` and `claude-3-5-sonnet`), the extraction returns
exactly those two captures, in that order. -/
theorem C1_sample_extraction :
    extract_blog_links sample_html.toList =
      ["/blog/introducing-cowork".toList, "/blog/claude-3-5-sonnet".toList] := by
  decide

/-- C2: for every input string, the extraction collects exactly the
non-overlapping left-to-right occurrences of `href="` `/blog/` `[^"]*`
`"`, each capture running from `/blog/` up to but excluding the first
subsequent quote: the spec-side scan relation holds of an output list
precisely when that list is the extraction result. -/
theorem C2_scan_refinement (s : List Char) (out : List (List Char)) :
    ScanRel s out ↔ out = extract_blog_links s := by
  constructor
  · exact extract_of_scanRel
  · rintro rfl
    exact scanRel_of_extract_aux s.length s le_rfl

/-- C2 witness: the spec-side scan relation holds between the sample
input and its extraction result. -/
theorem C2_scan_refinement_witness :
    ScanRel sample_html.toList
      ["/blog/introducing-cowork".toList, "/blog/claude-3-5-sonnet".toList] :=
  (C2_scan_refinement sample_html.toList
    ["/blog/introducing-cowork".toList, "/blog/claude-3-5-sonnet".toList]).mpr (by decide)

/-- C3: on the sample input the driver prints the fixed introductory
line followed by exactly two lines, each a single space, the fixed
prefix `https://claude.com`, and the captured Link Path, in order. -/
theorem C3_sample_output :
    output_lines sample_html.toList =
      [introLine,
       urlPre ++ "/blog/introducing-cowork".toList,
       urlPre ++ "/blog/claude-3-5-sonnet".toList] := by
  decide

/-- C4: extraction cannot fail; it returns the empty sequence exactly
when the input contains no occurrence of the `href="/blog/..."`
pattern (in particular on the empty string), and a nonempty result
exactly when some occurrence exists. -/
theorem C4_empty_iff_no_occurrence (s : List Char) :
    extract_blog_links s = [] ↔ ¬ hasHit s :=
  extract_empty_iff s

/-- C4 witness: on the single-character input `a` the extraction
evaluates to `[]`, hence that input provably has no occurrence. -/
theorem C4_empty_iff_no_occurrence_witness :
    ¬ hasHit ['a'] :=
  (C4_empty_iff_no_occurrence ['a']).mp (by decide)

/-- C5: for every input the output sequence lists the captures of the
matches in input order: it is the second projection of the
position-annotated match list, whose positions are strictly increasing
(no sorting or reordering), and each annotated pair is a genuine
occurrence of the pattern at its recorded position. -/
theorem C5_order_preservation (s : List Char) :
    extract_blog_links s = (extractPos s).map Prod.snd ∧
      List.Chain' (· < ·) ((extractPos s).map Prod.fst) ∧
      ∀ pr ∈ extractPos s, occAt s pr.1 pr.2 :=
  ⟨extract_eq_map_snd s, extractPosAux_chain s.length 0 s, extractPos_occ⟩

/-- C5 witness: at the sample input, the pair `(4, /blog/introducing-cowork)`
is among the annotated matches and is an occurrence at position 4. -/
theorem C5_order_preservation_witness :
    ((4, "/blog/introducing-cowork".toList) ∈ extractPos sample_html.toList) ∧
      occAt sample_html.toList 4 ("/blog/introducing-cowork".toList) :=
  ⟨by decide,
    (C5_order_preservation sample_html.toList).2.2
      (4, "/blog/introducing-cowork".toList) (by decide)⟩

/-- C6: every element of the extraction result occurs verbatim as a
substring of the input, and every URL line the driver prints is the
fixed prefix followed by such a verbatim capture. -/
theorem C6_verbatim_substring (s : List Char) :
    (∀ cap ∈ extract_blog_links s, ∃ a b, s = a ++ (cap ++ b)) ∧
      ∀ line ∈ (output_lines s).tail,
        ∃ cap a b, line = urlPre ++ cap ∧ s = a ++ (cap ++ b) := by
  constructor
  · intro cap hc
    exact extract_mem_verbatim hc
  · intro line hl
    simp only [output_lines, List.tail_cons] at hl
    obtain ⟨cap, hc, hline⟩ := List.mem_map.mp hl
    obtain ⟨a, b, hab⟩ := extract_mem_verbatim hc
    exact ⟨cap, a, b, hline.symm, hab⟩

/-- C6 witness: the first sample capture occurs verbatim in the sample
input. -/
theorem C6_verbatim_substring_witness :
    ("/blog/introducing-cowork".toList ∈ extract_blog_links sample_html.toList) ∧
      ∃ a b, sample_html.toList = a ++ ("/blog/introducing-cowork".toList ++ b) :=
  ⟨by decide,
    (C6_verbatim_substring sample_html.toList).1 ("/blog/introducing-cowork".toList)
      (by decide)⟩

/-- C7 counterexample: the regex token class is `[^"]*` — ZERO or more
characters — so for the input `<a href="/blog/">` the extraction
returns the bare six-character path `/blog/` (empty token), contrary to
the claim that no returned Link Path is exactly `/blog/`. -/
theorem C7_counterexample :
    "/blog/".toList ∈ extract_blog_links ("<a href=\"/blog/\">".toList) := by
  decide

/-- C7 (amended): every element of the extraction result has the shape
`/blog/<token>` where `<token>` is ZERO or more characters excluding the
double quote; the empty token — the bare `/blog/` — can be returned. -/
theorem C7_shape (s cap : List Char) (h : cap ∈ extract_blog_links s) :
    ∃ tok, cap = blogRoot ++ tok ∧ ('"' : Char) ∉ tok := by
  rw [extract_eq_map_snd] at h
  obtain ⟨pr, hpr, hsnd⟩ := List.mem_map.mp h
  obtain ⟨tok, rem, hq, hcap, -⟩ := extractPos_occ pr hpr
  exact ⟨tok, by rw [← hsnd, hcap], hq⟩

/-- C7 witness: the first sample capture has the `/blog/<token>` shape. -/
theorem C7_shape_witness :
    ("/blog/introducing-cowork".toList ∈ extract_blog_links sample_html.toList) ∧
      ∃ tok, "/blog/introducing-cowork".toList = blogRoot ++ tok ∧ ('"' : Char) ∉ tok :=
  ⟨by decide,
    C7_shape sample_html.toList ("/blog/introducing-cowork".toList) (by decide)⟩

/-- C8 counterexample: this input is `href="/blog/` followed by the
anchor `href="/blog/x"` twice, so it contains the same link twice; yet
the extraction returns only ONE entry equal to `/blog/x`, because the
unterminated leading `href="/blog/` starts a match that swallows the
first anchor's opening, capturing `/blog/href=` instead. -/
theorem C8_counterexample :
    ("href=\"/blog/".toList ++ (occX ++ occX) =
        "href=\"/blog/href=\"/blog/x\"href=\"/blog/x\"".toList) ∧
      extract_blog_links ("href=\"/blog/".toList ++ (occX ++ occX)) =
        ["/blog/href=".toList, capX] ∧
      (extract_blog_links ("href=\"/blog/".toList ++ (occX ++ occX))).count capX = 1 := by
  decide

/-- C8 (amended): when the two occurrences of `href="/blog/x"` are
separated by quote-free text — so that no earlier match can overlap
them — the extraction returns the capture `/blog/x` twice, as two
separate entries: duplicates are preserved, never deduplicated.  Over
arbitrary surrounding text the original claim fails (see the
counterexample, where an earlier match swallows the first occurrence). -/
theorem C8_duplicates (p q r : List Char)
    (hp : ('"' : Char) ∉ p) (hq : ('"' : Char) ∉ q) (hr : ('"' : Char) ∉ r) :
    extract_blog_links (p ++ (occX ++ (q ++ (occX ++ r)))) = [capX, capX] :=
  extract_double_occX p q r hp hq hr

/-- C8 witness: with `<p>`, `</p><p>`, `</p>` as the quote-free
surrounding text, the extraction of the doubled anchor yields the
capture twice. -/
theorem C8_duplicates_witness :
    (('"' : Char) ∉ "<p>".toList ∧ ('"' : Char) ∉ "</p><p>".toList ∧
        ('"' : Char) ∉ "</p>".toList) ∧
      extract_blog_links
          ("<p>".toList ++ (occX ++ ("</p><p>".toList ++ (occX ++ "</p>".toList)))) =
        [capX, capX] :=
  ⟨by decide,
    C8_duplicates ("<p>".toList) ("</p><p>".toList) ("</p>".toList)
      (by decide) (by decide) (by decide)⟩

/-- C9: matching requires the exact lowercase literal `href="`
immediately before the path: wherever an input reads `HREF="` (upper
case), `href = "` (spaces around the equals sign), or `href='` (single
quote), no match starts at that position, so that position contributes
no entry; and each of the three one-anchor variant inputs extracts to
the empty list. -/
theorem C9_variants_unmatched :
    (∀ (s t : List Char) (q : Nat),
        (s.drop q = hrefUpper ++ t ∨ s.drop q = hrefSpaced ++ t ∨
          s.drop q = hrefSingle ++ t) →
        ∀ cap, (q, cap) ∉ extractPos s) ∧
      extract_blog_links ("<a HREF=\"/blog/x\">".toList) = [] ∧
      extract_blog_links ("<a href = \"/blog/x\">".toList) = [] ∧
      extract_blog_links ("<a href='/blog/x'>".toList) = [] := by
  refine ⟨?_, by decide, by decide, by decide⟩
  intro s t q hv cap hmem
  obtain ⟨u, hu⟩ := occAt_head6 (extractPos_occ (q, cap) hmem)
  rcases hv with hv | hv | hv <;> rw [hv] at hu
  · exact @append_head_ne hrefUpper ("href=\"".toList) t u 0
      (by decide) (by decide) (by decide) hu
  · exact @append_head_ne hrefSpaced ("href=\"".toList) t u 4
      (by decide) (by decide) (by decide) hu
  · exact @append_head_ne hrefSingle ("href=\"".toList) t u 5
      (by decide) (by decide) (by decide) hu

/-- C9 witness: position 2 of `xxHREF="/blog/x"` reads `HREF="`, and no
annotated match of that input is recorded at position 2. -/
theorem C9_variants_unmatched_witness :
    (("xxHREF=\"/blog/x\"".toList : List Char).drop 2 =
        hrefUpper ++ "/blog/x\"".toList) ∧
      (2, capX) ∉ extractPos ("xxHREF=\"/blog/x\"".toList) :=
  ⟨by decide,
    C9_variants_unmatched.1 ("xxHREF=\"/blog/x\"".toList) ("/blog/x\"".toList) 2
      (Or.inl (by decide)) capX⟩

/-- C10: the fixed introductory line is exactly the text `示例解析:`;
for every input it is the first output line, occurs exactly once in the
output, and is still printed (alone) when the extraction result is
empty. -/
theorem C10_intro_line (s : List Char) :
    introLine = "示例解析:".toList ∧
      (output_lines s).head? = some introLine ∧
      (output_lines s).count introLine = 1 ∧
      (extract_blog_links s = [] → output_lines s = [introLine]) := by
  refine ⟨rfl, rfl, ?_, ?_⟩
  · have hz : ((extract_blog_links s).map (fun m => urlPre ++ m)).count introLine = 0 := by
      rw [List.count_eq_zero]
      intro hmem
      obtain ⟨cap, -, hline⟩ := List.mem_map.mp hmem
      have h0 : (urlPre ++ cap)[0]? = some ' ' := by
        have he : (urlPre ++ cap)[0]? = urlPre[0]? :=
          List.getElem?_append_left (by decide)
        rw [he]
        decide
      rw [hline] at h0
      exact absurd h0 (by decide)
    show (introLine :: (extract_blog_links s).map (fun m => urlPre ++ m)).count introLine = 1
    rw [List.count_cons_self, hz]
  · intro he
    unfold output_lines
    rw [he]
    rfl

/-- C10 witness: on the empty input the output is the introductory line
alone. -/
theorem C10_intro_line_witness :
    output_lines [] = [introLine] :=
  (C10_intro_line []).2.2.2 (by decide)
